import Mathlib

/-!
Verification development for the `climate_categories` categorical data model
(`src/climate_categories/_categories.py`).

The file has two layers:

* `Src*` definitions embed the Python module as it stands: the constructors of
  `Categorization` and `HierarchicalCategorization` store their keyword
  arguments, and every other public operation unconditionally raises
  `NotImplementedError`.

* The remaining definitions are modelled from the specification (the design
  document), because the implementations of lookup, extension and hierarchy
  operations are absent from the source: codes are kept as an
  insertion-ordered association list, the hierarchy is an edge list, and
  levels are computed by the topological relaxation pass the specification
  describes.
-/

/-- A calendar date (stands in for Python's `datetime.date`). -/
structure Date where
  year : Nat
  month : Nat
  day : Nat
deriving DecidableEq, Repr

/-- The only exception the source module ever raises. -/
inductive PyError where
  | notImplementedError
deriving DecidableEq, Repr

/-- Embeds `Categorization.__init__`: the constructor stores each keyword
argument verbatim in the attribute of the same name. -/
structure SrcCategorization where
  name : String
  references : String
  title : String
  comment : String
  institution : String
  last_update : Date
  version : Option String
  hierarchical : Bool
deriving DecidableEq, Repr

/-- `Categorization.__init__` with all arguments supplied (`version` and
`hierarchical` are keyword arguments with defaults; see
`SrcCategorization.initDefaults` for a call that omits them). -/
def SrcCategorization.init (name references title comment institution : String)
    (last_update : Date) (version : Option String) (hierarchical : Bool) :
    SrcCategorization :=
  { name := name, references := references, title := title, comment := comment,
    institution := institution, last_update := last_update, version := version,
    hierarchical := hierarchical }

/-- `Categorization.__init__` invoked without `version` and `hierarchical`,
which default to `None` and `False` in the source. -/
def SrcCategorization.initDefaults (name references title comment institution : String)
    (last_update : Date) : SrcCategorization :=
  SrcCategorization.init name references title comment institution last_update none false

/-- `Categorization.__getitem__` — `raise NotImplementedError`. -/
def SrcCategorization.getitem (_self : SrcCategorization) (_code : String) :
    Except PyError String :=
  .error .notImplementedError

/-- `Categorization.keys` — `raise NotImplementedError`. -/
def SrcCategorization.keys (_self : SrcCategorization) : Except PyError (List String) :=
  .error .notImplementedError

/-- `Categorization.df` — `raise NotImplementedError` (the dataframe never
materializes, so its type is irrelevant). -/
def SrcCategorization.df (_self : SrcCategorization) : Except PyError Unit :=
  .error .notImplementedError

/-- `Categorization.extend` — `raise NotImplementedError`. -/
def SrcCategorization.extendMethod (_self : SrcCategorization) (_name : String)
    (_categories : List (String × String)) (_title _comment : Option String)
    (_last_update : Option Date) : Except PyError SrcCategorization :=
  .error .notImplementedError

/-- `Categorization.from_csvs` — `raise NotImplementedError`. -/
def SrcCategorization.from_csvs (_metadata_csv _data_csv : String) :
    Except PyError SrcCategorization :=
  .error .notImplementedError

/-- Embeds `HierarchicalCategorization`: the constructor calls the base
constructor with `hierarchical=True` and stores `total_sum`. -/
structure SrcHierarchicalCategorization where
  toSrcCategorization : SrcCategorization
  total_sum : Bool
deriving DecidableEq, Repr

/-- `HierarchicalCategorization.__init__`: no `hierarchical` parameter exists;
the base constructor is always called with `hierarchical=True`. -/
def SrcHierarchicalCategorization.init (name references title comment institution : String)
    (last_update : Date) (version : Option String) (total_sum : Bool) :
    SrcHierarchicalCategorization :=
  { toSrcCategorization :=
      SrcCategorization.init name references title comment institution last_update
        version true,
    total_sum := total_sum }

/-- `HierarchicalCategorization.__init__` invoked without `version` and
`total_sum`, which default to `None` and `False` in the source. -/
def SrcHierarchicalCategorization.initDefaults
    (name references title comment institution : String) (last_update : Date) :
    SrcHierarchicalCategorization :=
  SrcHierarchicalCategorization.init name references title comment institution
    last_update none false

/-- `HierarchicalCategorization.from_csvs` — `raise NotImplementedError`. -/
def SrcHierarchicalCategorization.from_csvs (_metadata_csv _data_csv _hierarchy_csv : String) :
    Except PyError SrcHierarchicalCategorization :=
  .error .notImplementedError

/-- `HierarchicalCategorization.extend` — `raise NotImplementedError`. -/
def SrcHierarchicalCategorization.extendMethod (_self : SrcHierarchicalCategorization)
    (_name : String) (_categories : List (String × String))
    (_children : Option (List (String × List String))) (_title _comment : Option String)
    (_last_update : Option Date) : Except PyError SrcHierarchicalCategorization :=
  .error .notImplementedError

/-- `HierarchicalCategorization.extend_with_hierarchy` — `raise NotImplementedError`. -/
def SrcHierarchicalCategorization.extend_with_hierarchy
    (_self : SrcHierarchicalCategorization) (_name : String)
    (_categories : List (String × String)) (_hierarchy : List (String × List String))
    (_title _comment : Option String) (_last_update : Option Date) :
    Except PyError SrcHierarchicalCategorization :=
  .error .notImplementedError

/-- `HierarchicalCategorization.level` — `raise NotImplementedError`. -/
def SrcHierarchicalCategorization.level (_self : SrcHierarchicalCategorization)
    (_code : String) : Except PyError Nat :=
  .error .notImplementedError

/-- `HierarchicalCategorization.parents` — `raise NotImplementedError`. -/
def SrcHierarchicalCategorization.parents (_self : SrcHierarchicalCategorization)
    (_code : String) : Except PyError (List String) :=
  .error .notImplementedError

/-- `HierarchicalCategorization.children` — `raise NotImplementedError`. -/
def SrcHierarchicalCategorization.children (_self : SrcHierarchicalCategorization)
    (_code : String) : Except PyError (List String) :=
  .error .notImplementedError

/-- `HierarchicalCategorization.hierarchy` — `raise NotImplementedError`. -/
def SrcHierarchicalCategorization.hierarchy (_self : SrcHierarchicalCategorization) :
    Except PyError (List (String × List String)) :=
  .error .notImplementedError

/-- Modelled from the spec: the recoverable error kinds of the design document
(§7); the source declares the operations that would raise them but leaves
their bodies unimplemented. -/
inductive SpecError where
  | codeNotFound
  | duplicateCode
  | cyclicHierarchy
  | inconsistentLevel
  | invalidEdge
deriving DecidableEq, Repr

/-- Modelled from the spec: a flat categorization. The code/meaning store
(absent from the source, which only documents it) is an insertion-ordered
association list; metadata fields are those of §3. A cleared `institution`
is the empty string. -/
structure Cat where
  categories : List (String × String)
  name : String
  references : String
  title : String
  comment : String
  institution : String
  last_update : Date
  version : Option String
  hierarchical : Bool
deriving DecidableEq, Repr

/-- Modelled from the spec: `keys()` — all category codes in insertion order. -/
def keysOf (cat : Cat) : List String :=
  cat.categories.map Prod.fst

/-- Modelled from the spec: `lookup(code)` / `__getitem__` (unimplemented in
the source) — the meaning of a code, failing with `CodeNotFound` when the
code is unknown. -/
def lookupC (cat : Cat) (code : String) : Except SpecError String :=
  match cat.categories.find? (fun p => p.1 == code) with
  | some p => .ok p.2
  | none => .error .codeNotFound

/-- Modelled from the spec: the store and metadata of a successful extension
(§4.1) — the base's store followed by the new categories, `name` suffixed,
`title`/`comment` appended to (defaults derived from the extension name),
`last_update` overridden or set to today, `institution` cleared, `version`
and `hierarchical` copied. -/
def extendedCat (base : Cat) (nm : String) (cats : List (String × String))
    (titleO commentO : Option String) (lastO : Option Date) (today : Date) : Cat :=
  { categories := base.categories ++ cats,
    name := base.name ++ "_" ++ nm,
    references := base.references,
    title := base.title ++ titleO.getD (" + " ++ nm),
    comment := base.comment ++ commentO.getD (" extended by " ++ nm),
    institution := "",
    last_update := lastO.getD today,
    version := base.version,
    hierarchical := base.hierarchical }

/-- Modelled from the spec: `Categorization.extend` (unimplemented in the
source) — §4.1. The wall clock is passed in as `today`. Every new code must
be absent from the base, else the call fails with `DuplicateCode`; on
success the result is `extendedCat` and the base is not touched. -/
def extendFlat (base : Cat) (nm : String) (cats : List (String × String))
    (titleO commentO : Option String) (lastO : Option Date) (today : Date) :
    Except SpecError Cat :=
  if cats.any (fun p => decide (p.1 ∈ keysOf base)) then
    .error .duplicateCode
  else
    .ok (extendedCat base nm cats titleO commentO lastO today)

/-- Modelled from the spec: a hierarchical categorization (§3) — a flat
categorization together with a set of parent→child edges and the
`total_sum` flag. -/
structure HCat where
  toCat : Cat
  edges : List (String × String)
  total_sum : Bool
deriving DecidableEq, Repr

/-- Modelled from the spec: the direct parents of a code, in insertion order
of the edges. -/
def parentsOf (edges : List (String × String)) (code : String) : List String :=
  (edges.filter (fun e => e.2 == code)).map Prod.fst

/-- Modelled from the spec: the direct children of a code, in insertion order
of the edges. -/
def childrenOf (edges : List (String × String)) (code : String) : List String :=
  (edges.filter (fun e => e.1 == code)).map Prod.snd

/-- Modelled from the spec: a parent→children mapping (the `children` /
`hierarchy` arguments of the extension calls) flattened into an edge list. -/
def edgesOfHierarchy (h : List (String × List String)) : List (String × String) :=
  h.flatMap (fun pc => pc.2.map (fun c => (pc.1, c)))

/-- Modelled from the spec: every edge endpoint must lie in the code set
(else `InvalidEdge`, §7). -/
def edgesValid (codes : List String) (edges : List (String × String)) : Bool :=
  edges.all (fun e => decide (e.1 ∈ codes) && decide (e.2 ∈ codes))

/-- The level recorded for a code in a partial level assignment. -/
def assigned (asg : List (String × Nat)) (c : String) : Option Nat :=
  (asg.find? (fun p => p.1 == c)).map Prod.snd

/-- The levels of all the given codes, or `none` if any is unassigned. -/
def allAssigned (asg : List (String × Nat)) : List String → Option (List Nat)
  | [] => some []
  | p :: ps =>
    match assigned asg p with
    | none => none
    | some l => (allAssigned asg ps).map (fun ls => l :: ls)

/-- Modelled from the spec: one relaxation pass of the level computation
(§4.2): a code with no parents gets level 1; a code all of whose parents
are already levelled gets `1 + parent level` when the parents agree and
fails with `InconsistentLevel` when they disagree; other codes wait for a
later pass. -/
def passOnce (edges : List (String × String)) :
    List String → List (String × Nat) → Except SpecError (List (String × Nat))
  | [], asg => .ok asg
  | c :: rest, asg =>
    if (assigned asg c).isSome then passOnce edges rest asg
    else if parentsOf edges c = [] then passOnce edges rest (asg ++ [(c, 1)])
    else
      match allAssigned asg (parentsOf edges c) with
      | none => passOnce edges rest asg
      | some [] => passOnce edges rest asg
      | some (l :: ls) =>
        if ls.all (fun x => x == l) then passOnce edges rest (asg ++ [(c, l + 1)])
        else .error .inconsistentLevel

/-- Relaxation passes repeated until every code is levelled; codes left
unassignable (they sit on or below a cycle) make the computation fail with
`CyclicHierarchy`. -/
def computeLevelsAux (codes : List String) (edges : List (String × String)) :
    Nat → List (String × Nat) → Except SpecError (List (String × Nat))
  | 0, asg =>
    if codes.all (fun c => (assigned asg c).isSome) then .ok asg
    else .error .cyclicHierarchy
  | n + 1, asg =>
    if codes.all (fun c => (assigned asg c).isSome) then .ok asg
    else
      match passOnce edges codes asg with
      | .error e => .error e
      | .ok asg2 => computeLevelsAux codes edges n asg2

/-- Modelled from the spec: the level computation — a topological pass over
the DAG assigning level 1 to parentless codes and `1 + level(parent)` to
the rest (§4.2). -/
def computeLevels (codes : List String) (edges : List (String × String)) :
    Except SpecError (List (String × Nat)) :=
  computeLevelsAux codes edges codes.length []

/-- One step of the descendant closure: add the direct children of the
current set. -/
def descendStep (edges : List (String × String)) (s : List String) : List String :=
  s ++ (((edges.filter (fun e => decide (e.1 ∈ s))).map Prod.snd).filter
    (fun c => decide (c ∉ s)))

/-- The descendant closure of a starting set, to the given depth. -/
def descendClosure (edges : List (String × String)) : Nat → List String → List String
  | 0, s => s
  | n + 1, s => descendClosure edges n (descendStep edges s)

/-- Modelled from the spec: the edge set contains a cycle (§3 invariant 1)
iff some code is reachable from one of its own children. -/
def hasCycleB (codes : List String) (edges : List (String × String)) : Bool :=
  codes.any (fun c => decide (c ∈ descendClosure edges codes.length (childrenOf edges c)))

/-- Modelled from the spec: whole-graph validation after an extension —
acyclicity first, then level consistency via the relaxation pass; on
success the computed level assignment is returned. -/
def validateHierarchy (codes : List String) (edges : List (String × String)) :
    Except SpecError (List (String × Nat)) :=
  if hasCycleB codes edges then .error .cyclicHierarchy
  else computeLevels codes edges

/-- Modelled from the spec: `level(code)` (unimplemented in the source) —
levels come from the construction-time validation; an unknown code fails
with `CodeNotFound`. -/
def levelOf (hc : HCat) (code : String) : Except SpecError Nat :=
  if code ∈ keysOf hc.toCat then
    match validateHierarchy (keysOf hc.toCat) hc.edges with
    | .error e => .error e
    | .ok asg =>
      match assigned asg code with
      | some l => .ok l
      | none => .error .cyclicHierarchy
  else .error .codeNotFound

/-- Modelled from the spec: `parents(code)` (unimplemented in the source) —
the direct parents, failing with `CodeNotFound` on an unknown code. -/
def parentsQ (hc : HCat) (code : String) : Except SpecError (List String) :=
  if code ∈ keysOf hc.toCat then .ok (parentsOf hc.edges code)
  else .error .codeNotFound

/-- Modelled from the spec: `children(code)` (unimplemented in the source) —
the direct children, failing with `CodeNotFound` on an unknown code. -/
def childrenQ (hc : HCat) (code : String) : Except SpecError (List String) :=
  if code ∈ keysOf hc.toCat then .ok (childrenOf hc.edges code)
  else .error .codeNotFound

/-- Modelled from the spec: `HierarchicalCategorization.extend`
(unimplemented in the source) — §4.2: duplicate codes are rejected, the
`children` argument is translated into edges **added** to the base's edge
set, edge endpoints must lie in the combined code set, and the whole
resulting graph is re-validated for acyclicity and level consistency
before any instance is produced. -/
def hextend (base : HCat) (nm : String) (cats : List (String × String))
    (children : List (String × List String)) (titleO commentO : Option String)
    (lastO : Option Date) (today : Date) : Except SpecError HCat :=
  if cats.any (fun p => decide (p.1 ∈ keysOf base.toCat)) then
    .error .duplicateCode
  else
    if edgesValid (keysOf base.toCat ++ cats.map Prod.fst)
        (base.edges ++ edgesOfHierarchy children) then
      match validateHierarchy (keysOf base.toCat ++ cats.map Prod.fst)
          (base.edges ++ edgesOfHierarchy children) with
      | .error e => .error e
      | .ok _ =>
        .ok { toCat := extendedCat base.toCat nm cats titleO commentO lastO today,
              edges := base.edges ++ edgesOfHierarchy children,
              total_sum := base.total_sum }
    else .error .invalidEdge

/-- Modelled from the spec: `extend_with_hierarchy` (unimplemented in the
source) — §4.2: like `hextend`, but the `hierarchy` argument **replaces**
the entire edge set; the result's edges are built solely from `hierarchy`
over the combined code set. -/
def hextendWith (base : HCat) (nm : String) (cats : List (String × String))
    (hierarchy : List (String × List String)) (titleO commentO : Option String)
    (lastO : Option Date) (today : Date) : Except SpecError HCat :=
  if cats.any (fun p => decide (p.1 ∈ keysOf base.toCat)) then
    .error .duplicateCode
  else
    if edgesValid (keysOf base.toCat ++ cats.map Prod.fst)
        (edgesOfHierarchy hierarchy) then
      match validateHierarchy (keysOf base.toCat ++ cats.map Prod.fst)
          (edgesOfHierarchy hierarchy) with
      | .error e => .error e
      | .ok _ =>
        .ok { toCat := extendedCat base.toCat nm cats titleO commentO lastO today,
              edges := edgesOfHierarchy hierarchy,
              total_sum := base.total_sum }
    else .error .invalidEdge

/-- Modelled from the spec: the structural invariants of a hierarchical
categorization (§3) as a single check — unique codes, edge endpoints in
the code set, and a validated (acyclic, level-consistent) graph. -/
def isValidH (hc : HCat) : Bool :=
  (keysOf hc.toCat).Nodup
    && edgesValid (keysOf hc.toCat) hc.edges
    && (validateHierarchy (keysOf hc.toCat) hc.edges).isOk

/-- Modelled from the spec: the structural invariant of a flat categorization
(§3) — every code maps to exactly one meaning, i.e. codes are unique. -/
def isValidC (cat : Cat) : Bool :=
  (keysOf cat).Nodup

/-- Modelled from the spec: a flat extension call observed together with the
state of the base after the call; §7's propagation policy says the call
never writes to the base, so the post-call base is the original object. -/
def extendFlatCall (base : Cat) (nm : String) (cats : List (String × String))
    (titleO commentO : Option String) (lastO : Option Date) (today : Date) :
    Except SpecError Cat × Cat :=
  (extendFlat base nm cats titleO commentO lastO today, base)

/-- Modelled from the spec: a hierarchical extension call observed together
with the state of the base after the call; §7's propagation policy says the
call never writes to the base, so the post-call base is the original
object. -/
def hextendCall (base : HCat) (nm : String) (cats : List (String × String))
    (children : List (String × List String)) (titleO commentO : Option String)
    (lastO : Option Date) (today : Date) : Except SpecError HCat × HCat :=
  (hextend base nm cats children titleO commentO lastO today, base)

/-- Consistency of a (partial) level assignment with respect to the edge
set: every recorded level is ≥ 1, parentless codes sit at level 1, and a
levelled code exceeds each of its (necessarily levelled) parents by
exactly one. -/
def ConsistentAsg (edges : List (String × String)) (asg : List (String × Nat)) : Prop :=
  ∀ c l, assigned asg c = some l →
    1 ≤ l ∧
    (parentsOf edges c = [] → l = 1) ∧
    (∀ p ∈ parentsOf edges c, ∃ lp, assigned asg p = some lp ∧ l = lp + 1)

/-- A concrete flat categorization used to instantiate the theorems. -/
def catW : Cat :=
  { categories := [("A", "alpha"), ("B", "beta")],
    name := "CW", references := "refW", title := "TitleW", comment := "CommentW",
    institution := "InstW", last_update := ⟨2024, 1, 1⟩, version := some "1",
    hierarchical := false }

/-- A concrete hierarchical categorization (ROOT → A → X) used to instantiate
the theorems. -/
def hcatW : HCat :=
  { toCat :=
      { categories := [("ROOT", "the root"), ("A", "branch a"), ("X", "leaf x")],
        name := "HW", references := "refH", title := "TitleH", comment := "CommentH",
        institution := "InstH", last_update := ⟨2024, 1, 1⟩, version := none,
        hierarchical := true },
    edges := [("ROOT", "A"), ("A", "X")],
    total_sum := false }

/-- The extension of `catW` by one new category, used to instantiate the
theorems. -/
def resW : Cat :=
  extendedCat catW "ext" [("C", "gamma")] none none none ⟨2025, 1, 1⟩

/-- The result of extending `hcatW` with a replaced hierarchy, used to
instantiate the theorems. -/
def resW4 : HCat :=
  { toCat := extendedCat hcatW.toCat "wh" [("B", "bee")] none none none ⟨2025, 1, 1⟩,
    edges := edgesOfHierarchy [("ROOT", ["B"])],
    total_sum := hcatW.total_sum }

/-- The result of additively extending `hcatW` with one new category and one
new edge, used to instantiate the theorems. -/
def resW7 : HCat :=
  { toCat := extendedCat hcatW.toCat "add" [("B", "bee")] none none none ⟨2025, 1, 1⟩,
    edges := hcatW.edges ++ edgesOfHierarchy [("ROOT", ["B"])],
    total_sum := hcatW.total_sum }

/-- `assigned` on a cons unfolds to a comparison on the head. -/
theorem assigned_cons (a : String × Nat) (asg : List (String × Nat)) (c : String) :
    assigned (a :: asg) c = if a.1 == c then some a.2 else assigned asg c := by
  unfold assigned
  cases h : a.1 == c with
  | true =>
    have hf : List.find? (fun p => p.1 == c) (a :: asg) = some a :=
      List.find?_cons_of_pos _ h
    rw [hf]
    simp
  | false =>
    have hf : List.find? (fun p => p.1 == c) (a :: asg) = List.find? (fun p => p.1 == c) asg :=
      List.find?_cons_of_neg _ (by simp [h])
    rw [hf]
    simp

/-- An existing level assignment survives appending further entries. -/
theorem assigned_append_of_some {asg : List (String × Nat)} (ts : List (String × Nat)) :
    ∀ {c : String} {l : Nat}, assigned asg c = some l → assigned (asg ++ ts) c = some l := by
  induction asg with
  | nil => intro c l h; simp [assigned] at h
  | cons a as ih =>
    intro c l h
    rw [assigned_cons] at h
    rw [List.cons_append, assigned_cons]
    by_cases hb : a.1 == c
    · rwa [if_pos hb] at h ⊢
    · rw [if_neg hb] at h ⊢
      exact ih h

/-- Appending a fresh entry makes exactly that code assigned. -/
theorem assigned_append_new {asg : List (String × Nat)} :
    ∀ {c : String} (l : Nat), assigned asg c = none → assigned (asg ++ [(c, l)]) c = some l := by
  induction asg with
  | nil =>
    intro c l _
    rw [List.nil_append, assigned_cons]
    simp
  | cons a as ih =>
    intro c l h
    rw [assigned_cons] at h
    rw [List.cons_append, assigned_cons]
    by_cases hb : a.1 == c
    · rw [if_pos hb] at h; exact absurd h (by simp)
    · rw [if_neg hb] at h ⊢
      exact ih l h

/-- A level found after appending one entry comes from the old assignment or
is the new entry itself. -/
theorem assigned_append_split {asg : List (String × Nat)} :
    ∀ {c x : String} {k lx : Nat}, assigned (asg ++ [(c, k)]) x = some lx →
      assigned asg x = some lx ∨ (x = c ∧ lx = k ∧ assigned asg x = none) := by
  induction asg with
  | nil =>
    intro c x k lx h
    rw [List.nil_append, assigned_cons] at h
    by_cases hb : c == x
    · rw [if_pos hb] at h
      right
      refine ⟨(beq_iff_eq.mp hb).symm, ?_, rfl⟩
      exact (Option.some.injEq _ _ ▸ h).symm
    · rw [if_neg hb] at h
      exact absurd h (by simp [assigned])
  | cons a as ih =>
    intro c x k lx h
    rw [List.cons_append, assigned_cons] at h
    rw [assigned_cons]
    by_cases hb : a.1 == x
    · rw [if_pos hb] at h ⊢
      exact Or.inl h
    · rw [if_neg hb] at h ⊢
      exact ih h

/-- Every code covered by a successful `allAssigned` carries one of the
returned levels. -/
theorem allAssigned_mem {asg : List (String × Nat)} :
    ∀ {ps : List String} {ls : List Nat}, allAssigned asg ps = some ls →
      ∀ p ∈ ps, ∃ lp, assigned asg p = some lp ∧ lp ∈ ls := by
  intro ps
  induction ps with
  | nil => intro ls _ p hp; exact absurd hp (List.not_mem_nil p)
  | cons q qs ih =>
    intro ls h p hp
    unfold allAssigned at h
    cases ha : assigned asg q with
    | none => rw [ha] at h; exact absurd h (by simp)
    | some l =>
      rw [ha] at h
      cases hrest : allAssigned asg qs with
      | none => rw [hrest] at h; exact absurd h (by simp)
      | some ls' =>
        rw [hrest] at h
        have hls : ls = l :: ls' := by
          have := Option.some.injEq (l :: ls') ls ▸ h
          exact this.symm
        subst hls
        rcases List.mem_cons.mp hp with rfl | hmem
        · exact ⟨l, ha, List.mem_cons_self _ _⟩
        · obtain ⟨lp, h1, h2⟩ := ih hrest p hmem
          exact ⟨lp, h1, List.mem_cons_of_mem _ h2⟩

/-- Membership in `parentsOf` is exactly membership of the edge. -/
theorem mem_parentsOf {edges : List (String × String)} {p c : String} :
    p ∈ parentsOf edges c ↔ (p, c) ∈ edges := by
  unfold parentsOf
  constructor
  · intro h
    obtain ⟨e, he, rfl⟩ := List.mem_map.mp h
    obtain ⟨hmem, heq⟩ := List.mem_filter.mp he
    have : e.2 = c := beq_iff_eq.mp heq
    exact this ▸ hmem
  · intro h
    exact List.mem_map.mpr ⟨(p, c), List.mem_filter.mpr ⟨h, by simp⟩, rfl⟩

/-- Appending a root assignment (level 1, no parents) keeps the assignment
consistent. -/
theorem consistent_append_root {edges : List (String × String)}
    {asg : List (String × Nat)} {c : String} (hc : ConsistentAsg edges asg)
    (hp : parentsOf edges c = []) : ConsistentAsg edges (asg ++ [(c, 1)]) := by
  intro x lx hx
  rcases assigned_append_split hx with hold | ⟨rfl, rfl, -⟩
  · obtain ⟨h1, h2, h3⟩ := hc x lx hold
    refine ⟨h1, h2, fun p hp2 => ?_⟩
    obtain ⟨lp, hl1, hl2⟩ := h3 p hp2
    exact ⟨lp, assigned_append_of_some _ hl1, hl2⟩
  · refine ⟨le_refl 1, fun _ => rfl, fun p hp2 => ?_⟩
    rw [hp] at hp2
    exact absurd hp2 (List.not_mem_nil p)

/-- Appending a child assignment (all parents already at the same level `l`)
keeps the assignment consistent. -/
theorem consistent_append_step {edges : List (String × String)}
    {asg : List (String × Nat)} {c : String} {l : Nat} (hc : ConsistentAsg edges asg)
    (hne : parentsOf edges c ≠ [])
    (hpar : ∀ p ∈ parentsOf edges c, assigned asg p = some l) :
    ConsistentAsg edges (asg ++ [(c, l + 1)]) := by
  intro x lx hx
  rcases assigned_append_split hx with hold | ⟨rfl, rfl, -⟩
  · obtain ⟨h1, h2, h3⟩ := hc x lx hold
    refine ⟨h1, h2, fun p hp2 => ?_⟩
    obtain ⟨lp, hl1, hl2⟩ := h3 p hp2
    exact ⟨lp, assigned_append_of_some _ hl1, hl2⟩
  · refine ⟨Nat.le_add_left 1 l, fun hcontra => absurd hcontra hne, fun p hp2 => ?_⟩
    exact ⟨l, assigned_append_of_some _ (hpar p hp2), rfl⟩

/-- A successful relaxation pass preserves consistency and never unassigns a
code. -/
theorem passOnce_ok {edges : List (String × String)} :
    ∀ (cs : List String) (asg asg' : List (String × Nat)),
      ConsistentAsg edges asg → passOnce edges cs asg = .ok asg' →
      ConsistentAsg edges asg' ∧
        ∀ c l, assigned asg c = some l → assigned asg' c = some l := by
  intro cs
  induction cs with
  | nil =>
    intro asg asg' hc h
    unfold passOnce at h
    have : asg = asg' := by
      simpa using h
    exact this ▸ ⟨hc, fun _ _ hx => hx⟩
  | cons c rest ih =>
    intro asg asg' hc h
    unfold passOnce at h
    cases hasg : assigned asg c with
    | some l0 =>
      rw [hasg] at h
      simp only [Option.isSome_some, if_true] at h
      exact ih asg asg' hc h
    | none =>
      rw [hasg] at h
      simp only [Option.isSome_none, Bool.false_eq_true, if_false] at h
      by_cases hp : parentsOf edges c = []
      · rw [if_pos hp] at h
        have hc1 : ConsistentAsg edges (asg ++ [(c, 1)]) := consistent_append_root hc hp
        obtain ⟨h1, h2⟩ := ih _ asg' hc1 h
        exact ⟨h1, fun x lx hx => h2 x lx (assigned_append_of_some _ hx)⟩
      · rw [if_neg hp] at h
        cases hall : allAssigned asg (parentsOf edges c) with
        | none =>
          rw [hall] at h
          exact ih asg asg' hc h
        | some ls =>
          rw [hall] at h
          cases ls with
          | nil => exact ih asg asg' hc h
          | cons l tail =>
            dsimp only at h
            by_cases hbt : tail.all (fun x => x == l) = true
            · rw [if_pos hbt] at h
              have hpar : ∀ p ∈ parentsOf edges c, assigned asg p = some l := by
                intro p hpmem
                obtain ⟨lp, hl1, hl2⟩ := allAssigned_mem hall p hpmem
                have : lp = l := by
                  rcases List.mem_cons.mp hl2 with rfl | hmem
                  · rfl
                  · exact beq_iff_eq.mp (List.all_eq_true.mp hbt lp hmem)
                exact this ▸ hl1
              have hc1 : ConsistentAsg edges (asg ++ [(c, l + 1)]) :=
                consistent_append_step hc hp hpar
              obtain ⟨h1, h2⟩ := ih _ asg' hc1 h
              exact ⟨h1, fun x lx hx => h2 x lx (assigned_append_of_some _ hx)⟩
            · rw [if_neg hbt] at h
              exact absurd h (by simp)

/-- The relaxation pass fails only with `InconsistentLevel`. -/
theorem passOnce_error {edges : List (String × String)} :
    ∀ (cs : List String) (asg : List (String × Nat)) (e : SpecError),
      passOnce edges cs asg = .error e → e = .inconsistentLevel := by
  intro cs
  induction cs with
  | nil =>
    intro asg e h
    unfold passOnce at h
    exact absurd h (by simp)
  | cons c rest ih =>
    intro asg e h
    unfold passOnce at h
    cases hasg : assigned asg c with
    | some l0 =>
      rw [hasg] at h
      simp only [Option.isSome_some, if_true] at h
      exact ih asg e h
    | none =>
      rw [hasg] at h
      simp only [Option.isSome_none, Bool.false_eq_true, if_false] at h
      by_cases hp : parentsOf edges c = []
      · rw [if_pos hp] at h
        exact ih _ e h
      · rw [if_neg hp] at h
        cases hall : allAssigned asg (parentsOf edges c) with
        | none =>
          rw [hall] at h
          exact ih asg e h
        | some ls =>
          rw [hall] at h
          cases ls with
          | nil => exact ih asg e h
          | cons l tail =>
            dsimp only at h
            by_cases hbt : tail.all (fun x => x == l) = true
            · rw [if_pos hbt] at h
              exact ih _ e h
            · rw [if_neg hbt] at h
              have : SpecError.inconsistentLevel = e := by
                simpa using h
              exact this.symm

/-- A successful bounded relaxation yields a consistent assignment covering
every code. -/
theorem computeLevelsAux_ok {codes : List String} {edges : List (String × String)} :
    ∀ (n : Nat) (asg asg' : List (String × Nat)),
      ConsistentAsg edges asg → computeLevelsAux codes edges n asg = .ok asg' →
      ConsistentAsg edges asg' ∧
        codes.all (fun c => (assigned asg' c).isSome) = true := by
  intro n
  induction n with
  | zero =>
    intro asg asg' hc h
    unfold computeLevelsAux at h
    by_cases hall : codes.all (fun c => (assigned asg c).isSome) = true
    · rw [if_pos hall] at h
      have : asg = asg' := by simpa using h
      exact this ▸ ⟨hc, hall⟩
    · rw [if_neg hall] at h
      exact absurd h (by simp)
  | succ n ih =>
    intro asg asg' hc h
    unfold computeLevelsAux at h
    by_cases hall : codes.all (fun c => (assigned asg c).isSome) = true
    · rw [if_pos hall] at h
      have : asg = asg' := by simpa using h
      exact this ▸ ⟨hc, hall⟩
    · rw [if_neg hall] at h
      cases hpass : passOnce edges codes asg with
      | error e => rw [hpass] at h; exact absurd h (by simp)
      | ok asg2 =>
        rw [hpass] at h
        obtain ⟨hc2, -⟩ := passOnce_ok codes asg asg2 hc hpass
        exact ih asg2 asg' hc2 h

/-- The bounded relaxation fails only with `CyclicHierarchy` (a stall) or
`InconsistentLevel` (disagreeing parents). -/
theorem computeLevelsAux_error {codes : List String} {edges : List (String × String)} :
    ∀ (n : Nat) (asg : List (String × Nat)) (e : SpecError),
      computeLevelsAux codes edges n asg = .error e →
      e = .cyclicHierarchy ∨ e = .inconsistentLevel := by
  intro n
  induction n with
  | zero =>
    intro asg e h
    unfold computeLevelsAux at h
    by_cases hall : codes.all (fun c => (assigned asg c).isSome) = true
    · rw [if_pos hall] at h; exact absurd h (by simp)
    · rw [if_neg hall] at h
      left
      have : SpecError.cyclicHierarchy = e := by simpa using h
      exact this.symm
  | succ n ih =>
    intro asg e h
    unfold computeLevelsAux at h
    by_cases hall : codes.all (fun c => (assigned asg c).isSome) = true
    · rw [if_pos hall] at h; exact absurd h (by simp)
    · rw [if_neg hall] at h
      cases hpass : passOnce edges codes asg with
      | error e2 =>
        rw [hpass] at h
        have he : e2 = e := by simpa using h
        exact Or.inr (he ▸ passOnce_error codes asg e2 hpass)
      | ok asg2 =>
        rw [hpass] at h
        exact ih asg2 e h

/-- A successful level computation is consistent and covers every code. -/
theorem computeLevels_ok {codes : List String} {edges : List (String × String)}
    {asg : List (String × Nat)} (h : computeLevels codes edges = .ok asg) :
    ConsistentAsg edges asg ∧ ∀ c ∈ codes, (assigned asg c).isSome = true := by
  have hbase : ConsistentAsg edges ([] : List (String × Nat)) := by
    intro c l hcl
    simp [assigned] at hcl
  obtain ⟨h1, h2⟩ := computeLevelsAux_ok codes.length [] asg hbase h
  exact ⟨h1, fun c hc => List.all_eq_true.mp h2 c hc⟩

/-- Whole-graph validation succeeds only without a cycle, and then returns
the successful level computation. -/
theorem validateHierarchy_ok {codes : List String} {edges : List (String × String)}
    {asg : List (String × Nat)} (h : validateHierarchy codes edges = .ok asg) :
    hasCycleB codes edges = false ∧ computeLevels codes edges = .ok asg := by
  unfold validateHierarchy at h
  by_cases hcy : hasCycleB codes edges = true
  · rw [if_pos hcy] at h; exact absurd h (by simp)
  · rw [if_neg hcy] at h
    exact ⟨Bool.not_eq_true _ ▸ Bool.of_not_eq_true hcy, h⟩

/-- Whole-graph validation fails only with `CyclicHierarchy` or
`InconsistentLevel`. -/
theorem validateHierarchy_error {codes : List String} {edges : List (String × String)}
    {e : SpecError} (h : validateHierarchy codes edges = .error e) :
    e = .cyclicHierarchy ∨ e = .inconsistentLevel := by
  unfold validateHierarchy at h
  by_cases hcy : hasCycleB codes edges = true
  · rw [if_pos hcy] at h
    left
    have : SpecError.cyclicHierarchy = e := by simpa using h
    exact this.symm
  · rw [if_neg hcy] at h
    exact computeLevelsAux_error codes.length [] e h

/-- In a store with unique codes, `find?` returns exactly the stored pair. -/
theorem find?_assoc_some :
    ∀ {l : List (String × String)} {c m : String},
      (l.map Prod.fst).Nodup → (c, m) ∈ l →
      l.find? (fun p => p.1 == c) = some (c, m) := by
  intro l
  induction l with
  | nil => intro c m _ hmem; exact absurd hmem (List.not_mem_nil _)
  | cons a as ih =>
    intro c m hnd hmem
    obtain ⟨hnotin, hnd'⟩ := List.nodup_cons.mp hnd
    rcases List.mem_cons.mp hmem with rfl | hmem'
    · exact List.find?_cons_of_pos _ (by simp)
    · have hne : ¬(a.1 == c) = true := by
        simp only [beq_iff_eq]
        intro he
        apply hnotin
        rw [he]
        exact List.mem_map.mpr ⟨(c, m), hmem', rfl⟩
      have hf : (a :: as).find? (fun p => p.1 == c) = as.find? (fun p => p.1 == c) :=
        List.find?_cons_of_neg _ hne
      rw [hf]
      exact ih hnd' hmem'

/-- On a code outside the key set, `find?` comes up empty. -/
theorem find?_assoc_none :
    ∀ {l : List (String × String)} {c : String},
      c ∉ l.map Prod.fst → l.find? (fun p => p.1 == c) = none := by
  intro l
  induction l with
  | nil => intro c _; rfl
  | cons a as ih =>
    intro c h
    have h1 : ¬(a.1 == c) = true := by
      simp only [beq_iff_eq]
      intro he
      exact h (by rw [← he]; exact List.mem_cons_self _ _)
    have hf : (a :: as).find? (fun p => p.1 == c) = as.find? (fun p => p.1 == c) :=
      List.find?_cons_of_neg _ h1
    rw [hf]
    exact ih (fun hm => h (List.mem_cons_of_mem _ hm))

/-- C1: for every categorization with unique codes, looking up a code in the
code set returns the meaning supplied at construction, and looking up any
code outside the code set fails with `CodeNotFound`. -/
theorem c1_lookup_spec (cat : Cat) (c : String) :
    ((keysOf cat).Nodup → ∀ m, (c, m) ∈ cat.categories → lookupC cat c = .ok m) ∧
    (c ∉ keysOf cat → lookupC cat c = .error .codeNotFound) := by
  constructor
  · intro hnd m hmem
    unfold lookupC
    rw [find?_assoc_some hnd hmem]
  · intro hmem
    unfold lookupC
    rw [find?_assoc_none hmem]

/-- C1 instantiated: in `catW` the code `"A"` means `"alpha"`, and the
unknown code `"Z"` fails with `CodeNotFound`. -/
theorem c1_lookup_spec_witness :
    lookupC catW "A" = .ok "alpha" ∧ lookupC catW "Z" = .error .codeNotFound :=
  ⟨(c1_lookup_spec catW "A").1 (by decide) "alpha" (by decide),
   (c1_lookup_spec catW "Z").2 (by decide)⟩

/-- C8: every public data operation of the source module — `__getitem__`,
`keys`, `df`, `extend`, `from_csvs` on `Categorization`, and `extend`,
`extend_with_hierarchy`, `level`, `parents`, `children`, `hierarchy`,
`from_csvs` on `HierarchicalCategorization` — unconditionally raises
`NotImplementedError`, for every instance and every argument. -/
theorem c8_src_not_implemented :
    ∀ (self : SrcCategorization) (hself : SrcHierarchicalCategorization)
      (code nm mcsv dcsv hcsv : String) (cats : List (String × String))
      (ch : Option (List (String × List String))) (hier : List (String × List String))
      (t cm : Option String) (lu : Option Date),
      self.getitem code = .error .notImplementedError ∧
      self.keys = .error .notImplementedError ∧
      self.df = .error .notImplementedError ∧
      self.extendMethod nm cats t cm lu = .error .notImplementedError ∧
      SrcCategorization.from_csvs mcsv dcsv = .error .notImplementedError ∧
      hself.extendMethod nm cats ch t cm lu = .error .notImplementedError ∧
      hself.extend_with_hierarchy nm cats hier t cm lu = .error .notImplementedError ∧
      hself.level code = .error .notImplementedError ∧
      hself.parents code = .error .notImplementedError ∧
      hself.children code = .error .notImplementedError ∧
      hself.hierarchy = .error .notImplementedError ∧
      SrcHierarchicalCategorization.from_csvs mcsv dcsv hcsv = .error .notImplementedError :=
  fun _ _ _ _ _ _ _ _ _ _ _ _ _ =>
    ⟨rfl, rfl, rfl, rfl, rfl, rfl, rfl, rfl, rfl, rfl, rfl, rfl⟩

/-- C9: `Categorization.__init__` is total and stores each keyword argument
verbatim in the attribute of the same name; `version` defaults to `None`
and `hierarchical` to `False`; no code/meaning store is established at
construction (data operations on a fresh instance still raise). -/
theorem c9_src_init_stores :
    ∀ (nm rf tl cm inst : String) (lu : Date) (v : Option String) (hf : Bool)
      (code : String),
      (SrcCategorization.init nm rf tl cm inst lu v hf).name = nm ∧
      (SrcCategorization.init nm rf tl cm inst lu v hf).references = rf ∧
      (SrcCategorization.init nm rf tl cm inst lu v hf).title = tl ∧
      (SrcCategorization.init nm rf tl cm inst lu v hf).comment = cm ∧
      (SrcCategorization.init nm rf tl cm inst lu v hf).institution = inst ∧
      (SrcCategorization.init nm rf tl cm inst lu v hf).last_update = lu ∧
      (SrcCategorization.init nm rf tl cm inst lu v hf).version = v ∧
      (SrcCategorization.init nm rf tl cm inst lu v hf).hierarchical = hf ∧
      (SrcCategorization.initDefaults nm rf tl cm inst lu).version = none ∧
      (SrcCategorization.initDefaults nm rf tl cm inst lu).hierarchical = false ∧
      (SrcCategorization.init nm rf tl cm inst lu v hf).getitem code =
        .error .notImplementedError ∧
      (SrcCategorization.init nm rf tl cm inst lu v hf).keys =
        .error .notImplementedError :=
  fun _ _ _ _ _ _ _ _ _ =>
    ⟨rfl, rfl, rfl, rfl, rfl, rfl, rfl, rfl, rfl, rfl, rfl, rfl⟩

/-- C10: every `HierarchicalCategorization` has `hierarchical = True` — the
constructor takes no `hierarchical` parameter and always passes `True` to
the base constructor — while `total_sum` is stored verbatim and defaults to
`False`. -/
theorem c10_src_hinit_hierarchical :
    ∀ (nm rf tl cm inst : String) (lu : Date) (v : Option String) (ts : Bool),
      (SrcHierarchicalCategorization.init nm rf tl cm inst lu v ts).toSrcCategorization.hierarchical
        = true ∧
      (SrcHierarchicalCategorization.init nm rf tl cm inst lu v ts).total_sum = ts ∧
      (SrcHierarchicalCategorization.init nm rf tl cm inst lu v ts).toSrcCategorization
        = SrcCategorization.init nm rf tl cm inst lu v true ∧
      (SrcHierarchicalCategorization.initDefaults nm rf tl cm inst lu).total_sum = false ∧
      (SrcHierarchicalCategorization.initDefaults nm rf tl cm inst lu).toSrcCategorization.version
        = none :=
  fun _ _ _ _ _ _ _ _ => ⟨rfl, rfl, rfl, rfl, rfl⟩

/-- The duplicate check of the extension calls, read back as an existential. -/
theorem any_dup_iff (cats : List (String × String)) (ks : List String) :
    cats.any (fun p => decide (p.1 ∈ ks)) = true ↔ ∃ p ∈ cats, p.1 ∈ ks := by
  rw [List.any_eq_true]
  constructor
  · rintro ⟨p, hp, hd⟩
    exact ⟨p, hp, of_decide_eq_true hd⟩
  · rintro ⟨p, hp, hm⟩
    exact ⟨p, hp, decide_eq_true hm⟩

/-- C2: a successful flat extension returns an instance whose codes are the
base's codes followed by the new codes, whose name is `"{base.name}_{name}"`,
whose title and comment are the base's with the override (or the derived
default) appended, whose `last_update` is the override or today, whose
institution is cleared, and whose `version` and `hierarchical` are copied
from the base. -/
theorem c2_extendFlat_spec
    (base : Cat) (nm : String) (cats : List (String × String))
    (t c : Option String) (lu : Option Date) (today : Date) (res : Cat)
    (h : extendFlat base nm cats t c lu today = .ok res) :
    res.categories = base.categories ++ cats ∧
    keysOf res = keysOf base ++ cats.map Prod.fst ∧
    res.name = base.name ++ "_" ++ nm ∧
    res.title = base.title ++ t.getD (" + " ++ nm) ∧
    (t = none → res.title = base.title ++ (" + " ++ nm)) ∧
    res.comment = base.comment ++ c.getD (" extended by " ++ nm) ∧
    (c = none → res.comment = base.comment ++ (" extended by " ++ nm)) ∧
    res.last_update = lu.getD today ∧
    (lu = none → res.last_update = today) ∧
    res.institution = "" ∧
    res.version = base.version ∧
    res.hierarchical = base.hierarchical := by
  unfold extendFlat at h
  by_cases hd : cats.any (fun p => decide (p.1 ∈ keysOf base)) = true
  · rw [if_pos hd] at h
    exact absurd h (by simp)
  · rw [if_neg hd] at h
    have hres : extendedCat base nm cats t c lu today = res := by
      simpa using h
    subst hres
    refine ⟨rfl, ?_, rfl, rfl, fun ht => by subst ht; rfl, rfl,
      fun hc => by subst hc; rfl, rfl, fun hl => by subst hl; rfl, rfl, rfl, rfl⟩
    unfold keysOf extendedCat
    exact List.map_append _ _ _

/-- C2 instantiated: extending `catW` by the category `C` yields `resW`, whose
codes are `A`, `B`, `C`, named `CW_ext`, with institution cleared and
today's date recorded. -/
theorem c2_extendFlat_spec_witness :
    extendFlat catW "ext" [("C", "gamma")] none none none ⟨2025, 1, 1⟩ = .ok resW ∧
    keysOf resW = ["A", "B", "C"] ∧
    resW.name = "CW_ext" ∧
    resW.institution = "" ∧
    resW.last_update = ⟨2025, 1, 1⟩ := by
  obtain ⟨-, h2, h3, -, -, -, -, -, h9, h10, -, -⟩ :=
    c2_extendFlat_spec catW "ext" [("C", "gamma")] none none none ⟨2025, 1, 1⟩ resW rfl
  refine ⟨rfl, ?_, ?_, h10, h9 rfl⟩
  · rw [h2]
    decide
  · rw [h3]
    decide

/-- C3: an extension call — flat or hierarchical, additive or replacing —
fails with `DuplicateCode` exactly when some new code is already present in
the base's code set. -/
theorem c3_duplicate_iff
    (base : Cat) (hb : HCat) (nm : String) (cats : List (String × String))
    (ch hier : List (String × List String)) (t c : Option String)
    (lu : Option Date) (today : Date) :
    (extendFlat base nm cats t c lu today = .error .duplicateCode ↔
      ∃ p ∈ cats, p.1 ∈ keysOf base) ∧
    (hextend hb nm cats ch t c lu today = .error .duplicateCode ↔
      ∃ p ∈ cats, p.1 ∈ keysOf hb.toCat) ∧
    (hextendWith hb nm cats hier t c lu today = .error .duplicateCode ↔
      ∃ p ∈ cats, p.1 ∈ keysOf hb.toCat) := by
  refine ⟨?_, ?_, ?_⟩
  · unfold extendFlat
    by_cases hd : cats.any (fun p => decide (p.1 ∈ keysOf base)) = true
    · rw [if_pos hd]
      exact ⟨fun _ => (any_dup_iff cats (keysOf base)).mp hd, fun _ => rfl⟩
    · rw [if_neg hd]
      constructor
      · intro h
        exact absurd h (by simp)
      · intro hex
        exact absurd ((any_dup_iff cats (keysOf base)).mpr hex) hd
  · unfold hextend
    by_cases hd : cats.any (fun p => decide (p.1 ∈ keysOf hb.toCat)) = true
    · rw [if_pos hd]
      exact ⟨fun _ => (any_dup_iff cats (keysOf hb.toCat)).mp hd, fun _ => rfl⟩
    · rw [if_neg hd]
      constructor
      · intro h
        exfalso
        by_cases hev : edgesValid (keysOf hb.toCat ++ cats.map Prod.fst)
            (hb.edges ++ edgesOfHierarchy ch) = true
        · rw [if_pos hev] at h
          cases hval : validateHierarchy (keysOf hb.toCat ++ cats.map Prod.fst)
              (hb.edges ++ edgesOfHierarchy ch) with
          | error e =>
            rw [hval] at h
            dsimp only at h
            injection h with he
            rcases validateHierarchy_error hval with h1 | h1 <;>
              rw [he] at h1 <;> exact absurd h1 (by decide)
          | ok a =>
            rw [hval] at h
            dsimp only at h
            exact Except.noConfusion h
        · rw [if_neg hev] at h
          injection h with he
          exact absurd he (by decide)
      · intro hex
        exact absurd ((any_dup_iff cats (keysOf hb.toCat)).mpr hex) hd
  · unfold hextendWith
    by_cases hd : cats.any (fun p => decide (p.1 ∈ keysOf hb.toCat)) = true
    · rw [if_pos hd]
      exact ⟨fun _ => (any_dup_iff cats (keysOf hb.toCat)).mp hd, fun _ => rfl⟩
    · rw [if_neg hd]
      constructor
      · intro h
        exfalso
        by_cases hev : edgesValid (keysOf hb.toCat ++ cats.map Prod.fst)
            (edgesOfHierarchy hier) = true
        · rw [if_pos hev] at h
          cases hval : validateHierarchy (keysOf hb.toCat ++ cats.map Prod.fst)
              (edgesOfHierarchy hier) with
          | error e =>
            rw [hval] at h
            dsimp only at h
            injection h with he
            rcases validateHierarchy_error hval with h1 | h1 <;>
              rw [he] at h1 <;> exact absurd h1 (by decide)
          | ok a =>
            rw [hval] at h
            dsimp only at h
            exact Except.noConfusion h
        · rw [if_neg hev] at h
          injection h with he
          exact absurd he (by decide)
      · intro hex
        exact absurd ((any_dup_iff cats (keysOf hb.toCat)).mpr hex) hd

/-- C3 instantiated: reusing the existing code `A` makes all three extension
calls fail with `DuplicateCode`. -/
theorem c3_duplicate_iff_witness :
    extendFlat catW "e" [("A", "dup")] none none none ⟨2025, 1, 1⟩
      = .error .duplicateCode ∧
    hextend hcatW "e" [("A", "dup")] [] none none none ⟨2025, 1, 1⟩
      = .error .duplicateCode ∧
    hextendWith hcatW "e" [("A", "dup")] [] none none none ⟨2025, 1, 1⟩
      = .error .duplicateCode := by
  have h := c3_duplicate_iff catW hcatW "e" [("A", "dup")] [] [] none none none ⟨2025, 1, 1⟩
  exact ⟨h.1.mpr ⟨("A", "dup"), by decide, by decide⟩,
         h.2.1.mpr ⟨("A", "dup"), by decide, by decide⟩,
         h.2.2.mpr ⟨("A", "dup"), by decide, by decide⟩⟩

/-- Inversion of a successful additive hierarchical extension: the duplicate
check passed, the combined edges were valid, the whole graph validated, and
the result is the extended record. -/
theorem hextend_ok_elim {base : HCat} {nm : String} {cats : List (String × String)}
    {ch : List (String × List String)} {t c : Option String} {lu : Option Date}
    {today : Date} {res : HCat}
    (h : hextend base nm cats ch t c lu today = .ok res) :
    cats.any (fun p => decide (p.1 ∈ keysOf base.toCat)) = false ∧
    edgesValid (keysOf base.toCat ++ cats.map Prod.fst)
      (base.edges ++ edgesOfHierarchy ch) = true ∧
    (∃ asg, validateHierarchy (keysOf base.toCat ++ cats.map Prod.fst)
      (base.edges ++ edgesOfHierarchy ch) = .ok asg) ∧
    res = { toCat := extendedCat base.toCat nm cats t c lu today,
            edges := base.edges ++ edgesOfHierarchy ch,
            total_sum := base.total_sum } := by
  unfold hextend at h
  by_cases hd : cats.any (fun p => decide (p.1 ∈ keysOf base.toCat)) = true
  · rw [if_pos hd] at h
    exact absurd h (by simp)
  · rw [if_neg hd] at h
    by_cases hev : edgesValid (keysOf base.toCat ++ cats.map Prod.fst)
        (base.edges ++ edgesOfHierarchy ch) = true
    · rw [if_pos hev] at h
      cases hval : validateHierarchy (keysOf base.toCat ++ cats.map Prod.fst)
          (base.edges ++ edgesOfHierarchy ch) with
      | error e =>
        rw [hval] at h
        dsimp only at h
        exact absurd h (by simp)
      | ok asg =>
        rw [hval] at h
        dsimp only at h
        have hres := Except.ok.inj h
        exact ⟨by simpa using hd, hev, ⟨asg, rfl⟩, hres.symm⟩
    · rw [if_neg hev] at h
      exact absurd h (by simp)

/-- Inversion of a successful hierarchy-replacing extension: the duplicate
check passed, the new edges were valid, the new graph validated, and the
result is the extended record carrying exactly the new edges. -/
theorem hextendWith_ok_elim {base : HCat} {nm : String} {cats : List (String × String)}
    {hier : List (String × List String)} {t c : Option String} {lu : Option Date}
    {today : Date} {res : HCat}
    (h : hextendWith base nm cats hier t c lu today = .ok res) :
    cats.any (fun p => decide (p.1 ∈ keysOf base.toCat)) = false ∧
    edgesValid (keysOf base.toCat ++ cats.map Prod.fst) (edgesOfHierarchy hier) = true ∧
    (∃ asg, validateHierarchy (keysOf base.toCat ++ cats.map Prod.fst)
      (edgesOfHierarchy hier) = .ok asg) ∧
    res = { toCat := extendedCat base.toCat nm cats t c lu today,
            edges := edgesOfHierarchy hier,
            total_sum := base.total_sum } := by
  unfold hextendWith at h
  by_cases hd : cats.any (fun p => decide (p.1 ∈ keysOf base.toCat)) = true
  · rw [if_pos hd] at h
    exact absurd h (by simp)
  · rw [if_neg hd] at h
    by_cases hev : edgesValid (keysOf base.toCat ++ cats.map Prod.fst)
        (edgesOfHierarchy hier) = true
    · rw [if_pos hev] at h
      cases hval : validateHierarchy (keysOf base.toCat ++ cats.map Prod.fst)
          (edgesOfHierarchy hier) with
      | error e =>
        rw [hval] at h
        dsimp only at h
        exact absurd h (by simp)
      | ok asg =>
        rw [hval] at h
        dsimp only at h
        have hres := Except.ok.inj h
        exact ⟨by simpa using hd, hev, ⟨asg, rfl⟩, hres.symm⟩
    · rw [if_neg hev] at h
      exact absurd h (by simp)

/-- C4: a successful `extend_with_hierarchy` builds the result's edge set
solely from the `hierarchy` argument — every pair listed there is an edge of
the result, and a code that `hierarchy` lists as nobody's child has no
parents in the result, whatever edges the base had. -/
theorem c4_hextendWith_replaces
    (base : HCat) (nm : String) (cats : List (String × String))
    (hier : List (String × List String)) (t c : Option String) (lu : Option Date)
    (today : Date) (res : HCat)
    (h : hextendWith base nm cats hier t c lu today = .ok res) :
    res.edges = edgesOfHierarchy hier ∧
    (∀ pc : String × String, pc ∈ edgesOfHierarchy hier → pc ∈ res.edges) ∧
    (∀ a : String, a ∈ keysOf res.toCat → (∀ p, (p, a) ∉ edgesOfHierarchy hier) →
      parentsQ res a = .ok []) := by
  obtain ⟨-, -, -, hres⟩ := hextendWith_ok_elim h
  subst hres
  refine ⟨rfl, fun pc hpc => hpc, fun a ha hnone => ?_⟩
  have hfil : (edgesOfHierarchy hier).filter (fun e => e.2 == a) = [] := by
    rw [List.filter_eq_nil_iff]
    intro e he heq
    have he2 : e.2 = a := beq_iff_eq.mp heq
    exact hnone e.1 (by rw [← he2]; exact he)
  have hp : parentsOf (edgesOfHierarchy hier) a = [] := by
    unfold parentsOf
    rw [hfil]
    rfl
  unfold parentsQ
  rw [if_pos ha]
  exact congrArg Except.ok hp

/-- C5: with the duplicate and endpoint checks passed, the additive
hierarchical extension re-validates the whole combined graph — a cycle
makes it fail with `CyclicHierarchy`, disagreeing parent levels make it
fail with `InconsistentLevel`, and a failed call never also produces an
instance. -/
theorem c5_hextend_revalidates
    (base : HCat) (nm : String) (cats : List (String × String))
    (ch : List (String × List String)) (t c : Option String) (lu : Option Date)
    (today : Date)
    (hnd : cats.any (fun p => decide (p.1 ∈ keysOf base.toCat)) = false)
    (hev : edgesValid (keysOf base.toCat ++ cats.map Prod.fst)
      (base.edges ++ edgesOfHierarchy ch) = true) :
    (hasCycleB (keysOf base.toCat ++ cats.map Prod.fst)
        (base.edges ++ edgesOfHierarchy ch) = true →
      hextend base nm cats ch t c lu today = .error .cyclicHierarchy) ∧
    (hasCycleB (keysOf base.toCat ++ cats.map Prod.fst)
        (base.edges ++ edgesOfHierarchy ch) = false →
      computeLevels (keysOf base.toCat ++ cats.map Prod.fst)
          (base.edges ++ edgesOfHierarchy ch) = .error .inconsistentLevel →
      hextend base nm cats ch t c lu today = .error .inconsistentLevel) ∧
    (∀ e : SpecError, hextend base nm cats ch t c lu today = .error e →
      ∀ res : HCat, hextend base nm cats ch t c lu today ≠ .ok res) := by
  have hd' : ¬(cats.any (fun p => decide (p.1 ∈ keysOf base.toCat)) = true) := by
    rw [hnd]
    simp
  refine ⟨?_, ?_, ?_⟩
  · intro hcy
    unfold hextend
    rw [if_neg hd', if_pos hev]
    have hv : validateHierarchy (keysOf base.toCat ++ cats.map Prod.fst)
        (base.edges ++ edgesOfHierarchy ch) = .error .cyclicHierarchy := by
      unfold validateHierarchy
      rw [if_pos hcy]
    rw [hv]
  · intro hncy hlev
    unfold hextend
    rw [if_neg hd', if_pos hev]
    have hv : validateHierarchy (keysOf base.toCat ++ cats.map Prod.fst)
        (base.edges ++ edgesOfHierarchy ch) = .error .inconsistentLevel := by
      unfold validateHierarchy
      rw [if_neg (by rw [hncy]; simp)]
      exact hlev
    rw [hv]
  · intro e he res
    rw [he]
    simp

/-- C4 instantiated: replacing `hcatW`'s hierarchy (`ROOT→A→X`) with
`ROOT→B` leaves `A` parentless in the result while `B`'s parent is `ROOT`. -/
theorem c4_hextendWith_replaces_witness :
    hextendWith hcatW "wh" [("B", "bee")] [("ROOT", ["B"])] none none none ⟨2025, 1, 1⟩
      = .ok resW4 ∧
    resW4.edges = [("ROOT", "B")] ∧
    parentsQ resW4 "A" = .ok [] ∧
    parentsQ resW4 "B" = .ok ["ROOT"] := by
  have h := c4_hextendWith_replaces hcatW "wh" [("B", "bee")] [("ROOT", ["B"])]
    none none none ⟨2025, 1, 1⟩ resW4 rfl
  refine ⟨rfl, by rw [h.1]; rfl, h.2.2 "A" (by decide) ?_, rfl⟩
  intro p hp
  rw [show edgesOfHierarchy [("ROOT", ["B"])] = [("ROOT", "B")] from rfl] at hp
  have h2 := (Prod.mk.injEq _ _ _ _).mp (List.mem_singleton.mp hp)
  exact absurd h2.2 (by decide)

/-- C5 instantiated: adding the edge `X→ROOT` to `hcatW` closes a cycle and
fails with `CyclicHierarchy`; adding a level-1 code `OTHER` as a second
parent of the level-3 code `X` fails with `InconsistentLevel`. -/
theorem c5_hextend_revalidates_witness :
    hextend hcatW "cyc" [] [("X", ["ROOT"])] none none none ⟨2025, 1, 1⟩
      = .error .cyclicHierarchy ∧
    hextend hcatW "inc" [("OTHER", "other")] [("OTHER", ["X"])] none none none ⟨2025, 1, 1⟩
      = .error .inconsistentLevel :=
  ⟨(c5_hextend_revalidates hcatW "cyc" [] [("X", ["ROOT"])] none none none
      ⟨2025, 1, 1⟩ rfl rfl).1 rfl,
   (c5_hextend_revalidates hcatW "inc" [("OTHER", "other")] [("OTHER", ["X"])] none none
      none ⟨2025, 1, 1⟩ rfl rfl).2.1 rfl rfl⟩

/-- C6: in a hierarchical categorization whose graph validates (and whose
edges stay inside the code set), `level` returns an integer ≥ 1 for every
code; parentless codes sit at level 1 and every other code exceeds each of
its direct parents by exactly one; `level` of a code outside the code set
fails with `CodeNotFound`. -/
theorem c6_level_spec
    (hc : HCat) (asg : List (String × Nat))
    (hval : validateHierarchy (keysOf hc.toCat) hc.edges = .ok asg)
    (hev : edgesValid (keysOf hc.toCat) hc.edges = true) :
    (∀ code ∈ keysOf hc.toCat, ∃ l, levelOf hc code = .ok l ∧ 1 ≤ l ∧
      (parentsOf hc.edges code = [] → l = 1) ∧
      (∀ p ∈ parentsOf hc.edges code, ∃ lp, levelOf hc p = .ok lp ∧ l = lp + 1)) ∧
    (∀ code, code ∉ keysOf hc.toCat → levelOf hc code = .error .codeNotFound) := by
  obtain ⟨hcy, hcl⟩ := validateHierarchy_ok hval
  obtain ⟨hcons, hcov⟩ := computeLevels_ok hcl
  constructor
  · intro code hcode
    have hsome := hcov code hcode
    cases hl : assigned asg code with
    | none =>
      rw [hl] at hsome
      exact absurd hsome (by simp)
    | some l =>
      obtain ⟨h1, h2, h3⟩ := hcons code l hl
      refine ⟨l, ?_, h1, h2, ?_⟩
      · unfold levelOf
        rw [if_pos hcode, hval]
        dsimp only
        rw [hl]
      · intro p hp
        obtain ⟨lp, hlp, hplus⟩ := h3 p hp
        have hpmem : p ∈ keysOf hc.toCat := by
          have hedge : (p, code) ∈ hc.edges := mem_parentsOf.mp hp
          have hall := List.all_eq_true.mp hev _ hedge
          have h4 := (Bool.and_eq_true _ _).mp hall
          exact of_decide_eq_true h4.1
        refine ⟨lp, ?_, hplus⟩
        unfold levelOf
        rw [if_pos hpmem, hval]
        dsimp only
        rw [hlp]
  · intro code hcode
    unfold levelOf
    rw [if_neg hcode]

/-- C6 instantiated: in `hcatW` (`ROOT→A→X`) the code `X` has a well-defined
level (one more than each parent's), and the unknown code `ZZZ` fails with
`CodeNotFound`. -/
theorem c6_level_spec_witness :
    (∃ l, levelOf hcatW "X" = .ok l ∧ 1 ≤ l ∧
      (parentsOf hcatW.edges "X" = [] → l = 1) ∧
      (∀ p ∈ parentsOf hcatW.edges "X", ∃ lp, levelOf hcatW p = .ok lp ∧ l = lp + 1)) ∧
    levelOf hcatW "ZZZ" = .error .codeNotFound := by
  have h := c6_level_spec hcatW [("ROOT", 1), ("A", 2), ("X", 3)] rfl rfl
  exact ⟨h.1 "X" (by decide), h.2 "ZZZ" (by decide)⟩

/-- Inversion of a successful flat extension: the duplicate check passed and
the result is the extended record. -/
theorem extendFlat_ok_elim {base : Cat} {nm : String} {cats : List (String × String)}
    {t c : Option String} {lu : Option Date} {today : Date} {res : Cat}
    (h : extendFlat base nm cats t c lu today = .ok res) :
    cats.any (fun p => decide (p.1 ∈ keysOf base)) = false ∧
    res = extendedCat base nm cats t c lu today := by
  unfold extendFlat at h
  by_cases hd : cats.any (fun p => decide (p.1 ∈ keysOf base)) = true
  · rw [if_pos hd] at h
    exact absurd h (by simp)
  · rw [if_neg hd] at h
    exact ⟨by simpa using hd, (Except.ok.inj h).symm⟩

/-- Codes that pass the duplicate check make the combined key list nodup. -/
theorem nodup_combined_keys {ks : List String} {cats : List (String × String)}
    (hany : cats.any (fun p => decide (p.1 ∈ ks)) = false)
    (h1 : ks.Nodup) (h2 : (cats.map Prod.fst).Nodup) :
    (ks ++ cats.map Prod.fst).Nodup := by
  rw [List.nodup_append]
  refine ⟨h1, h2, fun a ha1 ha2 => ?_⟩
  obtain ⟨p, hp, hpa⟩ := List.mem_map.mp ha2
  have : cats.any (fun p => decide (p.1 ∈ ks)) = true :=
    (any_dup_iff cats ks).mpr ⟨p, hp, hpa ▸ ha1⟩
  rw [hany] at this
  exact absurd this (by simp)

/-- C7: extension never touches the base — the base observed after any
extension call (the second component of the call wrappers) is the original
object, so its keys and lookups are unchanged — and construction is
all-or-nothing: a failed call produces no instance, and every instance a
successful call produces satisfies the full structural invariant. -/
theorem c7_extension_frame
    (basec : Cat) (base : HCat) (nm : String) (cats : List (String × String))
    (ch : List (String × List String)) (t c : Option String) (lu : Option Date)
    (today : Date) :
    ((extendFlatCall basec nm cats t c lu today).2 = basec) ∧
    (keysOf (extendFlatCall basec nm cats t c lu today).2 = keysOf basec) ∧
    (∀ x, lookupC (extendFlatCall basec nm cats t c lu today).2 x = lookupC basec x) ∧
    ((hextendCall base nm cats ch t c lu today).2 = base) ∧
    (∀ x, lookupC (hextendCall base nm cats ch t c lu today).2.toCat x
      = lookupC base.toCat x) ∧
    (∀ res, extendFlat basec nm cats t c lu today = .ok res →
      isValidC basec = true → (cats.map Prod.fst).Nodup → isValidC res = true) ∧
    (∀ res, hextend base nm cats ch t c lu today = .ok res →
      (keysOf base.toCat).Nodup → (cats.map Prod.fst).Nodup → isValidH res = true) ∧
    (∀ e, extendFlat basec nm cats t c lu today = .error e →
      ¬∃ res, extendFlat basec nm cats t c lu today = .ok res) ∧
    (∀ e, hextend base nm cats ch t c lu today = .error e →
      ¬∃ res, hextend base nm cats ch t c lu today = .ok res) := by
  refine ⟨rfl, rfl, fun _ => rfl, rfl, fun _ => rfl, ?_, ?_, ?_, ?_⟩
  · intro res h hvb hnodup
    obtain ⟨hany, hres⟩ := extendFlat_ok_elim h
    subst hres
    have hkeys : keysOf (extendedCat basec nm cats t c lu today)
        = keysOf basec ++ cats.map Prod.fst := by
      unfold keysOf extendedCat
      exact List.map_append _ _ _
    unfold isValidC
    rw [hkeys]
    exact decide_eq_true (nodup_combined_keys hany (of_decide_eq_true hvb) hnodup)
  · intro res h hnd hnodup
    obtain ⟨hany, hev, ⟨asg, hval⟩, hres⟩ := hextend_ok_elim h
    subst hres
    have hkeys : keysOf (extendedCat base.toCat nm cats t c lu today)
        = keysOf base.toCat ++ cats.map Prod.fst := by
      unfold keysOf extendedCat
      exact List.map_append _ _ _
    unfold isValidH
    dsimp only
    rw [hkeys]
    simp only [Bool.and_eq_true]
    refine ⟨⟨?_, hev⟩, ?_⟩
    · exact decide_eq_true (nodup_combined_keys hany hnd hnodup)
    · rw [hval]
      rfl
  · rintro e he ⟨res, hres⟩
    rw [he] at hres
    exact Except.noConfusion hres
  · rintro e he ⟨res, hres⟩
    rw [he] at hres
    exact Except.noConfusion hres

/-- C7 instantiated: after both a failing and a succeeding extension of the
concrete bases, the observed post-call base is unchanged, the failing call
yields no instance, and the succeeding call's result is fully valid. -/
theorem c7_extension_frame_witness :
    (extendFlatCall catW "ext" [("C", "gamma")] none none none ⟨2025, 1, 1⟩).2 = catW ∧
    (hextendCall hcatW "add" [("B", "bee")] [("ROOT", ["B"])] none none none
      ⟨2025, 1, 1⟩).2 = hcatW ∧
    isValidC resW = true ∧
    isValidH resW7 = true ∧
    (¬∃ res, hextend hcatW "cyc" [] [("X", ["ROOT"])] none none none ⟨2025, 1, 1⟩
      = .ok res) := by
  have h := c7_extension_frame catW hcatW "ext" [("C", "gamma")] [] none none none
    ⟨2025, 1, 1⟩
  have h7 := c7_extension_frame catW hcatW "add" [("B", "bee")] [("ROOT", ["B"])]
    none none none ⟨2025, 1, 1⟩
  have hcyc := c7_extension_frame catW hcatW "cyc" [] [("X", ["ROOT"])] none none none
    ⟨2025, 1, 1⟩
  refine ⟨h.1, h7.2.2.2.1, ?_, ?_, ?_⟩
  · exact h.2.2.2.2.2.1 resW rfl (by decide) (by decide)
  · exact h7.2.2.2.2.2.2.1 resW7 rfl (by decide) (by decide)
  · exact hcyc.2.2.2.2.2.2.2.2 .cyclicHierarchy rfl
